import Mathlib

/-! Square operator of the KeOps formula engine.

A shallow embedding of `keops/core/formulas/maths/Square.h`.

* `Square.DIM`, `Square.Operation` and `Square.DiffT` are the three members of
  the header: the static dimension, the forward loop (run on an explicit pair
  of buffers) and the derivative rule.
* The other operators the header relies on (`Var`, `Zero`, `IntConstant`,
  `Mult`, `Scal`, ...) live in headers that are not part of this
  development; they are modelled from the catalog of the specification.

Scalars (`__TYPE__`) are taken in an arbitrary field `R`, so every statement
holds over the reals and can be evaluated over the rationals.
-/

namespace keops

/-! ## Buffers and the forward loop of `Square` -/

/-- A buffer reached through a `__TYPE__ *` pointer: a component for every index. -/
abbrev Buf (R : Type) := Nat → R

/-- The two buffers `Square::Operation` receives. They are distinct objects:
the caller evaluates the operand into a local array of its own before it
calls `Operation`. -/
structure OpState (R : Type) where
  /-- The output buffer `out`. -/
  out : Buf R
  /-- The evaluated operand buffer `outF`. -/
  outF : Buf R

/-- One pass through the loop body at index `k`:
`__TYPE__ temp = outF[k]; out[k] = temp * temp;`. -/
def Square.body {R : Type} [Mul R] (k : Nat) (s : OpState R) : OpState R :=
  let temp := s.outF k
  { s with out := Function.update s.out k (temp * temp) }

/-- The iterations `k = 0, 1, ..., n - 1` of the loop, in this order. -/
def Square.loop {R : Type} [Mul R] : Nat → OpState R → OpState R
  | 0, s => s
  | n + 1, s => Square.body n (Square.loop n s)

/-- `Square<F>::Operation(out, outF)` with `DIM` the static dimension:
`for (int k = 0; k < DIM; k++) { temp = outF[k]; out[k] = temp * temp; }`. -/
def Square.Operation {R : Type} [Mul R] (DIM : Nat) (s : OpState R) : OpState R :=
  Square.loop DIM s

/-- `static const int DIM = F::DIM;` (line 25): the dimension of `Square<F>`,
given the dimension `F::DIM` of its operand. -/
def Square.DIM (F_DIM : Nat) : Nat := F_DIM

/-! ## Formulas -/

/-- A variable `V`: the index of the input slot it reads, and its dimension. -/
structure Variable where
  /-- The input slot the variable reads. -/
  index : Nat
  /-- The length of the vector bound to the slot. -/
  DIM : Nat
  deriving DecidableEq

/-- Modelled from the spec: the node kinds of the operator catalog. Only `Square`
has its header in this development; the leaves (`Var`, `Constant`,
`IntConstant`, the zero formula) and the operators `Add`, `Mult`, `Scal`, `Pow`
are those of the catalog table, and `Sum` is the contraction the rule of `Scal`
builds, with `SumT` its transpose (a scalar repeated over `dim` components). -/
inductive Formula (R : Type) where
  /-- A variable leaf. -/
  | Var (v : Variable)
  /-- The zero formula of dimension `dim`. -/
  | Zero (dim : Nat)
  /-- An integer constant, of dimension 1. -/
  | IntConstant (n : Int)
  /-- A scalar `c` replicated over `dim` components. -/
  | Constant (c : R) (dim : Nat)
  /-- Elementwise sum. -/
  | Add (F G : Formula R)
  /-- Elementwise product. -/
  | Mult (F G : Formula R)
  /-- Scalar `F` (dimension 1) times vector `G`. -/
  | Scal (F G : Formula R)
  /-- The sum of the components of `F`, of dimension 1. -/
  | Sum (F : Formula R)
  /-- The scalar `F` repeated over `dim` components. -/
  | SumT (F : Formula R) (dim : Nat)
  /-- Elementwise square: the operator of `Square.h`. -/
  | Square (F : Formula R)
  /-- Elementwise integer power. -/
  | Pow (F : Formula R) (n : Int)
  deriving DecidableEq

/-- `Square<F>::DiffT<V, GRADIN>` (lines 39-44):
`Scal<IntConstant<2>, DiffTF<V, Mult<F, GRADIN>>>`, where `DiffTF` is
`F::DiffT`, the derivative rule of the operand, supplied by the header of the
operand. -/
def Square.DiffT {R : Type} (F : Formula R) (DiffTF : Variable → Formula R → Formula R)
    (V : Variable) (GRADIN : Formula R) : Formula R :=
  Formula.Scal (Formula.IntConstant 2) (DiffTF V (Formula.Mult F GRADIN))

namespace Formula

/-- Modelled from the spec: the static dimension of every node. `Square` takes
`Square.DIM` of the header; for the other nodes, whose headers are missing, an
elementwise node has the dimension of its operands, `Scal` that of its vector
operand, `IntConstant` and `Sum` dimension 1. -/
def DIM {R : Type} : Formula R → Nat
  | Var v => v.DIM
  | Zero dim => dim
  | IntConstant _ => 1
  | Constant _ dim => dim
  | Add F _ => F.DIM
  | Mult F _ => F.DIM
  | Scal _ G => G.DIM
  | Sum _ => 1
  | SumT _ dim => dim
  | Square F => Square.DIM F.DIM
  | Pow F _ => F.DIM

/-- Modelled from the spec: the dimension-compatibility rule of every node.
`Add` and `Mult` need operands of equal dimension, `Scal` a first operand of
dimension 1, `SumT` an operand of dimension 1. -/
def WellFormed {R : Type} : Formula R → Prop
  | Var _ => True
  | Zero _ => True
  | IntConstant _ => True
  | Constant _ _ => True
  | Add F G => F.WellFormed ∧ G.WellFormed ∧ F.DIM = G.DIM
  | Mult F G => F.WellFormed ∧ G.WellFormed ∧ F.DIM = G.DIM
  | Scal F G => F.WellFormed ∧ G.WellFormed ∧ F.DIM = 1
  | Sum F => F.WellFormed
  | SumT F _ => F.WellFormed ∧ F.DIM = 1
  | Square F => F.WellFormed
  | Pow F _ => F.WellFormed

/-- The variable index `i` is read by some leaf of the formula. -/
def Occurs {R : Type} (i : Nat) : Formula R → Prop
  | Var v => v.index = i
  | Zero _ => False
  | IntConstant _ => False
  | Constant _ _ => False
  | Add F G => F.Occurs i ∨ G.Occurs i
  | Mult F G => F.Occurs i ∨ G.Occurs i
  | Scal F G => F.Occurs i ∨ G.Occurs i
  | Sum F => F.Occurs i
  | SumT F _ => F.Occurs i
  | Square F => F.Occurs i
  | Pow F _ => F.Occurs i

/-- Every leaf of the formula that reads the slot of `V` has the dimension of
`V`: a variable is identified by its index, so the leaves with the index of `V`
are `V` itself. -/
def Binds {R : Type} (V : Variable) : Formula R → Prop
  | Var v => v.index = V.index → v.DIM = V.DIM
  | Zero _ => True
  | IntConstant _ => True
  | Constant _ _ => True
  | Add F G => F.Binds V ∧ G.Binds V
  | Mult F G => F.Binds V ∧ G.Binds V
  | Scal F G => F.Binds V ∧ G.Binds V
  | Sum F => F.Binds V
  | SumT F _ => F.Binds V
  | Square F => F.Binds V
  | Pow F _ => F.Binds V

/-- The input of an evaluation: component `k` of the vector bound to slot `i`
is `x i k`. -/
abbrev Env (R : Type) := Nat → Buf R

/-- Modelled from the spec: evaluation of a formula at an input. The result is
the output buffer of the node, whose components `0 .. DIM - 1` are the value of
the formula.

For `Square` the operand is evaluated first and `Square.Operation` of the
header is then run on a fresh output buffer, as the spec says of `UnaryOp`. The
forward rules of the other nodes, whose headers are missing, are those of the
catalog table: `Add` is `F[k] + G[k]`, `Mult` is `F[k] * G[k]`, `Scal` is
`F[0] * G[k]`, `Pow` is `F[k]^n`. -/
def eval {R : Type} [Field R] (x : Env R) : Formula R → Buf R
  | Var v => x v.index
  | Zero _ => fun _ => 0
  | IntConstant n => fun _ => (n : R)
  | Constant c _ => fun _ => c
  | Add F G => fun k => eval x F k + eval x G k
  | Mult F G => fun k => eval x F k * eval x G k
  | Scal F G => fun k => eval x F 0 * eval x G k
  | Sum F => fun _ => ∑ k in Finset.range F.DIM, eval x F k
  | SumT F _ => fun _ => eval x F 0
  | Square F =>
    (Square.Operation (Square.DIM F.DIM) (OpState.mk (fun _ => 0) (eval x F))).out
  | Pow F n => fun k => eval x F k ^ n

/-- The value of a formula at an input: the first `DIM` components of its
output buffer. -/
def value {R : Type} [Field R] (x : Env R) (F : Formula R) : List R :=
  (List.range F.DIM).map (eval x F)

/-- Modelled from the spec: the derivative rule `DiffT<V, GRADIN>` of every
node (`Differentiate` in the specification): the formula of the gradient of `F`
with respect to `V` applied to the upstream gradient `g`.

The `Square` case is `Square.DiffT` of the header, given the rule of the
operand. The rules of the other nodes, whose headers are missing, are those of
the catalog table; a leaf is `V` when its index is the index of `V`. `Sum` and
`SumT`, which the table leaves out, pass the transposed upstream gradient to
their operand. -/
def DiffT {R : Type} : Formula R → Variable → Formula R → Formula R
  | Var v, V, g => if v.index = V.index then g else Zero V.DIM
  | Zero _, V, _ => Zero V.DIM
  | IntConstant _, V, _ => Zero V.DIM
  | Constant _ _, V, _ => Zero V.DIM
  | Add F G, V, g => Add (DiffT F V g) (DiffT G V g)
  | Mult F G, V, g => Add (DiffT F V (Mult G g)) (DiffT G V (Mult F g))
  | Scal F G, V, g => Add (DiffT F V (Sum (Mult G g))) (DiffT G V (Scal F g))
  | Sum F, V, g => DiffT F V (SumT g F.DIM)
  | SumT F _, V, g => DiffT F V (Sum g)
  | Square F, V, g => Square.DiffT F (DiffT F) V g
  | Pow F n, V, g => Scal (IntConstant n) (DiffT F V (Mult (Pow F (n - 1)) g))

/-- The dependence of the formula on the variable of index `i` is
componentwise: the index occurs neither in the scalar operand of a `Scal` node
nor under a `Sum` or `SumT` node, the nodes that mix components. -/
def Componentwise {R : Type} (i : Nat) : Formula R → Prop
  | Var _ => True
  | Zero _ => True
  | IntConstant _ => True
  | Constant _ _ => True
  | Add F G => F.Componentwise i ∧ G.Componentwise i
  | Mult F G => F.Componentwise i ∧ G.Componentwise i
  | Scal F G => ¬ F.Occurs i ∧ G.Componentwise i
  | Sum F => ¬ F.Occurs i
  | SumT F _ => ¬ F.Occurs i
  | Square F => F.Componentwise i
  | Pow F _ => F.Componentwise i

end Formula

/-! ## Concrete formulas and inputs -/

/-- The scalar slot 0 times the vector slot 1: `Scal(Var(0), Var(1))`, of
dimension 2. -/
def scalF : Formula ℚ := Formula.Scal (Formula.Var ⟨0, 1⟩) (Formula.Var ⟨1, 2⟩)

/-- The scalar variable of slot 0. -/
def scalV : Variable := ⟨0, 1⟩

/-- An upstream gradient of dimension 2 read from slot 2. -/
def scalG : Formula ℚ := Formula.Var ⟨2, 2⟩

/-- The input with slot 1 bound to `[1, 2]` and every other slot to ones. -/
def scalEnv : Formula.Env ℚ := fun i k => if i = 1 then (k : ℚ) + 1 else 1

/-- The elementwise product `Mult(Var(0), Var(0))` of a variable of dimension 2
with itself. -/
def prodF : Formula ℚ := Formula.Mult (Formula.Var ⟨0, 2⟩) (Formula.Var ⟨0, 2⟩)

/-- The variable of slot 0, of dimension 2. -/
def prodV : Variable := ⟨0, 2⟩

/-- An upstream gradient of dimension 2 read from slot 1. -/
def prodG : Formula ℚ := Formula.Var ⟨1, 2⟩

/-- A state of the buffers with operand `[3, 1]` and a zeroed output. -/
def stateA : OpState ℚ := OpState.mk (fun _ => 0) (fun j => if j = 0 then 3 else 1)

/-- A state of the buffers with operand `[3, 7]` and an output filled with 5. -/
def stateB : OpState ℚ := OpState.mk (fun _ => 5) (fun j => if j = 0 then 3 else 7)

/-- The variable `Variable(0)` of dimension 1. -/
def x0 : Variable := ⟨0, 1⟩

/-- The first derivative `D1 = Differentiate(Square(Variable(0)), Variable(0), u)`. -/
def squareD1 {R : Type} (u : Formula R) : Formula R :=
  Formula.DiffT (Formula.Square (Formula.Var x0)) x0 u

/-- The second derivative `D2 = Differentiate(D1, Variable(0), u)`. -/
def squareD2 {R : Type} (u : Formula R) : Formula R :=
  Formula.DiffT (squareD1 u) x0 u

/-- The input that binds the number `a` to every component of every slot. -/
def constEnv {R : Type} (a : R) : Formula.Env R := fun _ _ => a

/-! ## The rule of `Pow`, measures of formulas and properties of rules -/

/-- Modelled from the spec: the derivative rule of `Pow(F, n)` in the catalog
table, `Scal(IntConstant(n), F.Diff(V, Mult(Pow(F, n-1), g)))`, with the rule of
the operand as the parameter `DiffTF`. -/
def Pow.DiffT {R : Type} (n : Int) (F : Formula R) (DiffTF : Variable → Formula R → Formula R)
    (V : Variable) (GRADIN : Formula R) : Formula R :=
  Formula.Scal (Formula.IntConstant n) (DiffTF V (Formula.Mult (Formula.Pow F (n - 1)) GRADIN))

/-- The gradient formula of `F` with respect to `V` depends on its upstream
gradient only through the value of that gradient: two upstream gradients of
dimension `DIM(F)` that evaluate to the same vector give gradients that evaluate
to the same vector. -/
def Formula.ValueOnly {R : Type} [Field R] (x : Formula.Env R) (F : Formula R)
    (V : Variable) : Prop :=
  ∀ h₁ h₂ : Formula R, h₁.DIM = F.DIM → h₂.DIM = F.DIM →
    Formula.value x h₁ = Formula.value x h₂ →
    Formula.value x (Formula.DiffT F V h₁) = Formula.value x (Formula.DiffT F V h₂)

/-- The rule `D`, which turns an upstream gradient of dimension `n` into a
gradient with respect to `V`, is linear in the value of the upstream gradient at
the input `x`: an upstream gradient whose value is `g₁ + c * g₂` gives the value
of the gradient with `g₁` plus `c` times the value of the gradient with `g₂`. -/
def Formula.LinearRule {R : Type} [Field R] (x : Formula.Env R) (V : Variable) (n : Nat)
    (D : Formula R → Formula R) : Prop :=
  ∀ (c : R) (g g₁ g₂ : Formula R), g.DIM = n → g₁.DIM = n → g₂.DIM = n →
    (∀ k : Nat, k < n → Formula.eval x g k = Formula.eval x g₁ k + c * Formula.eval x g₂ k) →
    ∀ j : Nat, j < V.DIM →
      Formula.eval x (D g) j = Formula.eval x (D g₁) j + c * Formula.eval x (D g₂) j

/-- An upstream gradient of dimension 2 whose value is that of `prodG` plus 5
times that of `scalG`. -/
def linG : Formula ℚ :=
  Formula.Add prodG (Formula.Scal (Formula.Constant 5 1) scalG)

/-- The input `x` with component `j` of slot `i` replaced by `t`. -/
def setComp {R : Type} (x : Formula.Env R) (i j : Nat) (t : R) : Formula.Env R :=
  Function.update x i (Function.update (x i) j t)

namespace Formula

/-- The depth of the formula tree: 0 at a leaf, one more than the deepest
operand at a composite node. -/
def depth {R : Type} : Formula R → Nat
  | Var _ => 0
  | Zero _ => 0
  | IntConstant _ => 0
  | Constant _ _ => 0
  | Add F G => max F.depth G.depth + 1
  | Mult F G => max F.depth G.depth + 1
  | Scal F G => max F.depth G.depth + 1
  | Sum F => F.depth + 1
  | SumT F _ => F.depth + 1
  | Square F => F.depth + 1
  | Pow F _ => F.depth + 1

/-- The number of nodes of the formula tree. -/
def size {R : Type} : Formula R → Nat
  | Var _ => 1
  | Zero _ => 1
  | IntConstant _ => 1
  | Constant _ _ => 1
  | Add F G => F.size + G.size + 1
  | Mult F G => F.size + G.size + 1
  | Scal F G => F.size + G.size + 1
  | Sum F => F.size + 1
  | SumT F _ => F.size + 1
  | Square F => F.size + 1
  | Pow F _ => F.size + 1

/-- Modelled from the spec: the recursive dispatch `Differentiate(node, V, g)` of
the engine, run with a bound `fuel` on the nesting of the recursive calls. A
leaf answers at once; a unary node makes one recursive call on its operand and
a binary node two, one per operand, each with one unit of fuel less. The result
is `none` when the fuel runs out before the leaves are reached. -/
def DiffTFuel {R : Type} : Nat → Formula R → Variable → Formula R → Option (Formula R)
  | 0, _, _, _ => none
  | _ + 1, Var v, V, g => some (if v.index = V.index then g else Zero V.DIM)
  | _ + 1, Zero _, V, _ => some (Zero V.DIM)
  | _ + 1, IntConstant _, V, _ => some (Zero V.DIM)
  | _ + 1, Constant _ _, V, _ => some (Zero V.DIM)
  | fuel + 1, Add F G, V, g =>
    match DiffTFuel fuel F V g, DiffTFuel fuel G V g with
    | some dF, some dG => some (Add dF dG)
    | _, _ => none
  | fuel + 1, Mult F G, V, g =>
    match DiffTFuel fuel F V (Mult G g), DiffTFuel fuel G V (Mult F g) with
    | some dF, some dG => some (Add dF dG)
    | _, _ => none
  | fuel + 1, Scal F G, V, g =>
    match DiffTFuel fuel F V (Sum (Mult G g)), DiffTFuel fuel G V (Scal F g) with
    | some dF, some dG => some (Add dF dG)
    | _, _ => none
  | fuel + 1, Sum F, V, g => DiffTFuel fuel F V (SumT g F.DIM)
  | fuel + 1, SumT F _, V, g => DiffTFuel fuel F V (Sum g)
  | fuel + 1, Square F, V, g =>
    match DiffTFuel fuel F V (Mult F g) with
    | some dF => some (Scal (IntConstant 2) dF)
    | none => none
  | fuel + 1, Pow F n, V, g =>
    match DiffTFuel fuel F V (Mult (Pow F (n - 1)) g) with
    | some dF => some (Scal (IntConstant n) dF)
    | none => none

end Formula

/-! ## Lemmas on the forward loop -/

theorem Square.loop_outF {R : Type} [Mul R] (n : Nat) (s : OpState R) :
    (Square.loop n s).outF = s.outF := by
  induction n with
  | zero => rfl
  | succ n ih => simpa [Square.loop, Square.body] using ih

theorem Square.loop_out_of_ge {R : Type} [Mul R] (n : Nat) (s : OpState R) (k : Nat)
    (hk : n ≤ k) : (Square.loop n s).out k = s.out k := by
  induction n with
  | zero => rfl
  | succ n ih =>
    have hne : k ≠ n := by omega
    simp only [Square.loop, Square.body, Function.update_noteq hne]
    exact ih (by omega)

theorem Square.loop_out_of_lt {R : Type} [Mul R] (n : Nat) (s : OpState R) (k : Nat)
    (hk : k < n) : (Square.loop n s).out k = s.outF k * s.outF k := by
  induction n with
  | zero => omega
  | succ n ih =>
    by_cases h : k = n
    · subst h
      simp [Square.loop, Square.body, Square.loop_outF]
    · simp only [Square.loop, Square.body, Function.update_noteq h]
      exact ih (by omega)

/-! ## Lemmas on evaluation and differentiation -/

namespace Formula

theorem eval_Square_of_lt {R : Type} [Field R] (x : Env R) (F : Formula R) (k : Nat) (hk : k < F.DIM) :
    eval x (Square F) k = eval x F k * eval x F k := by
  simp only [eval, Square.Operation, Square.DIM]
  exact Square.loop_out_of_lt F.DIM _ k hk

theorem eval_DiffT_Square {R : Type} [Field R] (x : Env R) (F g : Formula R) (V : Variable) (k : Nat) :
    eval x (DiffT (Square F) V g) k = 2 * eval x (DiffT F V (Mult F g)) k := by
  simp [DiffT, Square.DiffT, eval]

/-- The gradient with respect to a variable that the formula does not read is
zero in every component, and has the dimension of the variable. -/
theorem eval_DiffT_of_not_Occurs {R : Type} [Field R] (x : Env R) (V : Variable) (F : Formula R) :
    ¬ F.Occurs V.index → ∀ (g : Formula R) (k : Nat), eval x (DiffT F V g) k = 0 := by
  induction F with
  | Var v => intro h g k; simp [Occurs] at h; simp [DiffT, h, eval]
  | Zero dim => intro _ g k; simp [DiffT, eval]
  | IntConstant n => intro _ g k; simp [DiffT, eval]
  | Constant c dim => intro _ g k; simp [DiffT, eval]
  | Add F G ihF ihG =>
    intro h g k; simp only [Occurs, not_or] at h
    simp [DiffT, eval, ihF h.1, ihG h.2]
  | Mult F G ihF ihG =>
    intro h g k; simp only [Occurs, not_or] at h
    simp [DiffT, eval, ihF h.1, ihG h.2]
  | Scal F G ihF ihG =>
    intro h g k; simp only [Occurs, not_or] at h
    simp [DiffT, eval, ihF h.1, ihG h.2]
  | Sum F ih => intro h g k; simp only [Occurs] at h; simp [DiffT, ih h]
  | SumT F dim ih => intro h g k; simp only [Occurs] at h; simp [DiffT, ih h]
  | Square F ih =>
    intro h g k; simp only [Occurs] at h
    simp [DiffT, Square.DiffT, eval, ih h]
  | Pow F n ih =>
    intro h g k; simp only [Occurs] at h
    simp [DiffT, eval, ih h]

theorem DIM_DiffT_of_not_Occurs {R : Type} (V : Variable) (F : Formula R) :
    ¬ F.Occurs V.index → ∀ (g : Formula R), (DiffT F V g).DIM = V.DIM := by
  induction F with
  | Var v => intro h g; simp [Occurs] at h; simp [DiffT, h, DIM]
  | Zero dim => intro _ g; simp [DiffT, DIM]
  | IntConstant n => intro _ g; simp [DiffT, DIM]
  | Constant c dim => intro _ g; simp [DiffT, DIM]
  | Add F G ihF ihG =>
    intro h g; simp only [Occurs, not_or] at h
    simp [DiffT, DIM, ihF h.1]
  | Mult F G ihF ihG =>
    intro h g; simp only [Occurs, not_or] at h
    simp [DiffT, DIM, ihF h.1]
  | Scal F G ihF ihG =>
    intro h g; simp only [Occurs, not_or] at h
    simp [DiffT, DIM, ihF h.1]
  | Sum F ih => intro h g; simp only [Occurs] at h; simp [DiffT, ih h]
  | SumT F dim ih => intro h g; simp only [Occurs] at h; simp [DiffT, ih h]
  | Square F ih =>
    intro h g; simp only [Occurs] at h
    simp [DiffT, Square.DiffT, DIM, ih h]
  | Pow F n ih =>
    intro h g; simp only [Occurs] at h
    simp [DiffT, DIM, ih h]

theorem DIM_DiffT {R : Type} (V : Variable) (F : Formula R) :
    F.WellFormed → F.Binds V → ∀ (g : Formula R), g.DIM = F.DIM →
      (DiffT F V g).DIM = V.DIM := by
  induction F with
  | Var v =>
    intro _ hV g hg
    by_cases h : v.index = V.index
    · simp only [DiffT, h, if_true]
      rw [hg]; exact hV h
    · simp [DiffT, h, DIM]
  | Zero dim => intro _ _ g _; simp [DiffT, DIM]
  | IntConstant n => intro _ _ g _; simp [DiffT, DIM]
  | Constant c dim => intro _ _ g _; simp [DiffT, DIM]
  | Add F G ihF _ =>
    intro hF hV g hg
    simp only [DiffT, DIM]
    exact ihF hF.1 hV.1 g hg
  | Mult F G ihF _ =>
    intro hF hV g hg
    simp only [DiffT, DIM]
    exact ihF hF.1 hV.1 _ hF.2.2.symm
  | Scal F G ihF _ =>
    intro hF hV g hg
    simp only [DiffT, DIM]
    exact ihF hF.1 hV.1 _ hF.2.2.symm
  | Sum F ih =>
    intro hF hV g hg
    simp only [DiffT]
    exact ih hF hV _ rfl
  | SumT F dim ih =>
    intro hF hV g hg
    simp only [DiffT]
    exact ih hF.1 hV _ hF.2.symm
  | Square F ih =>
    intro hF hV g hg
    simp only [DiffT, Square.DiffT, DIM]
    exact ih hF hV _ rfl
  | Pow F n ih =>
    intro hF hV g hg
    simp only [DiffT, DIM]
    exact ih hF hV _ rfl

theorem WellFormed_DiffT {R : Type} (V : Variable) (F : Formula R) :
    F.WellFormed → F.Binds V → ∀ (g : Formula R), g.WellFormed → g.DIM = F.DIM →
      (DiffT F V g).WellFormed := by
  induction F with
  | Var v =>
    intro _ _ g hg _
    by_cases h : v.index = V.index
    · simpa [DiffT, h] using hg
    · simp [DiffT, h, WellFormed]
  | Zero dim => intro _ _ g _ _; simp [DiffT, WellFormed]
  | IntConstant n => intro _ _ g _ _; simp [DiffT, WellFormed]
  | Constant c dim => intro _ _ g _ _; simp [DiffT, WellFormed]
  | Add F G ihF ihG =>
    intro hF hV g hg hd
    have hdF : g.DIM = F.DIM := hd
    have hdG : g.DIM = G.DIM := hd.trans hF.2.2
    refine ⟨ihF hF.1 hV.1 g hg hdF, ihG hF.2.1 hV.2 g hg hdG, ?_⟩
    rw [DIM_DiffT V F hF.1 hV.1 g hdF, DIM_DiffT V G hF.2.1 hV.2 g hdG]
  | Mult F G ihF ihG =>
    intro hF hV g hg hd
    have hdF : g.DIM = F.DIM := hd
    have hdG : g.DIM = G.DIM := hd.trans hF.2.2
    have h1 : (Mult G g).WellFormed := ⟨hF.2.1, hg, hdG.symm⟩
    have h2 : (Mult F g).WellFormed := ⟨hF.1, hg, hdF.symm⟩
    have d1 : (Mult G g).DIM = F.DIM := hF.2.2.symm
    have d2 : (Mult F g).DIM = G.DIM := hF.2.2
    refine ⟨ihF hF.1 hV.1 _ h1 d1, ihG hF.2.1 hV.2 _ h2 d2, ?_⟩
    rw [DIM_DiffT V F hF.1 hV.1 _ d1, DIM_DiffT V G hF.2.1 hV.2 _ d2]
  | Scal F G ihF ihG =>
    intro hF hV g hg hd
    have hdG : g.DIM = G.DIM := hd
    have h1 : (Sum (Mult G g)).WellFormed := ⟨hF.2.1, hg, hdG.symm⟩
    have h2 : (Scal F g).WellFormed := ⟨hF.1, hg, hF.2.2⟩
    have d1 : (Sum (Mult G g)).DIM = F.DIM := hF.2.2.symm
    have d2 : (Scal F g).DIM = G.DIM := hdG
    refine ⟨ihF hF.1 hV.1 _ h1 d1, ihG hF.2.1 hV.2 _ h2 d2, ?_⟩
    rw [DIM_DiffT V F hF.1 hV.1 _ d1, DIM_DiffT V G hF.2.1 hV.2 _ d2]
  | Sum F ih =>
    intro hF hV g hg hd
    have hd1 : g.DIM = 1 := hd
    exact ih hF hV _ ⟨hg, hd1⟩ rfl
  | SumT F dim ih =>
    intro hF hV g hg hd
    exact ih hF.1 hV _ hg hF.2.symm
  | Square F ih =>
    intro hF hV g hg hd
    have hdF : g.DIM = F.DIM := hd
    have h1 : (Mult F g).WellFormed := ⟨hF, hg, hdF.symm⟩
    exact ⟨trivial, ih hF hV _ h1 rfl, rfl⟩
  | Pow F n ih =>
    intro hF hV g hg hd
    have hdF : g.DIM = F.DIM := hd
    have h1 : (Mult (Pow F (n - 1)) g).WellFormed := ⟨hF, hg, hdF.symm⟩
    exact ⟨trivial, ih hF hV _ h1 rfl, rfl⟩

/-- A formula whose dependence on `V` is componentwise has a diagonal
Jacobian: its gradient is the upstream gradient scaled component by component. -/
theorem eval_DiffT_of_Componentwise {R : Type} [Field R] (x : Env R) (V : Variable) (F : Formula R) :
    F.Componentwise V.index →
      ∃ d : Buf R, ∀ (h : Formula R) (k : Nat), eval x (DiffT F V h) k = d k * eval x h k := by
  induction F with
  | Var v =>
    intro _
    by_cases hv : v.index = V.index
    · exact ⟨fun _ => 1, fun h k => by simp [DiffT, hv]⟩
    · exact ⟨fun _ => 0, fun h k => by simp [DiffT, hv, eval]⟩
  | Zero dim => intro _; exact ⟨fun _ => 0, fun h k => by simp [DiffT, eval]⟩
  | IntConstant n => intro _; exact ⟨fun _ => 0, fun h k => by simp [DiffT, eval]⟩
  | Constant c dim => intro _; exact ⟨fun _ => 0, fun h k => by simp [DiffT, eval]⟩
  | Add F G ihF ihG =>
    intro hc
    obtain ⟨dF, hdF⟩ := ihF hc.1
    obtain ⟨dG, hdG⟩ := ihG hc.2
    exact ⟨fun k => dF k + dG k, fun h k => by simp only [DiffT, eval, hdF, hdG]; ring⟩
  | Mult F G ihF ihG =>
    intro hc
    obtain ⟨dF, hdF⟩ := ihF hc.1
    obtain ⟨dG, hdG⟩ := ihG hc.2
    exact ⟨fun k => dF k * eval x G k + dG k * eval x F k,
      fun h k => by simp only [DiffT, eval, hdF, hdG]; ring⟩
  | Scal F G _ ihG =>
    intro hc
    obtain ⟨dG, hdG⟩ := ihG hc.2
    exact ⟨fun k => dG k * eval x F 0, fun h k => by
      simp only [DiffT, eval, hdG, eval_DiffT_of_not_Occurs x V F hc.1]; ring⟩
  | Sum F _ =>
    intro hc
    exact ⟨fun _ => 0, fun h k => by
      simp only [DiffT, eval_DiffT_of_not_Occurs x V F hc]; ring⟩
  | SumT F dim _ =>
    intro hc
    exact ⟨fun _ => 0, fun h k => by
      simp only [DiffT, eval_DiffT_of_not_Occurs x V F hc]; ring⟩
  | Square F ih =>
    intro hc
    obtain ⟨dF, hdF⟩ := ih hc
    exact ⟨fun k => 2 * dF k * eval x F k, fun h k => by
      simp only [DiffT, Square.DiffT, eval, hdF, Int.cast_ofNat]; ring⟩
  | Pow F n ih =>
    intro hc
    obtain ⟨dF, hdF⟩ := ih hc
    exact ⟨fun k => n * dF k * eval x F k ^ (n - 1), fun h k => by
      simp only [DiffT, eval, hdF]; ring⟩

end Formula

/-! ## The forward rule of `Square` -/

/-- C1. Forward correctness of Square: for every operand formula `F` and every
pair of buffers, `Square<F>::Operation(out, outF)` leaves
`out[k] = outF[k] * outF[k]` for every `k < DIM`. -/
theorem Square_Operation_forward {R : Type} [Mul R] (F : Formula R) (s : OpState R) (k : Nat)
    (hk : k < Square.DIM F.DIM) :
    (Square.Operation (Square.DIM F.DIM) s).out k = s.outF k * s.outF k :=
  Square.loop_out_of_lt _ s k hk

/-- The witness of C1: `F = Variable(0)`, `DIM = 1`, `outF = [3]` gives
`out = [9]`. -/
theorem Square_Operation_forward_witness :
    (0 < Square.DIM (Formula.Var ⟨0, 1⟩ : Formula ℚ).DIM) ∧
      (Square.Operation (Square.DIM (Formula.Var ⟨0, 1⟩ : Formula ℚ).DIM)
        (OpState.mk (fun _ => (0 : ℚ)) (fun _ => (3 : ℚ)))).out 0 = 9 :=
  ⟨by decide, by
    rw [Square_Operation_forward (Formula.Var ⟨0, 1⟩ : Formula ℚ)
      (OpState.mk (fun _ => (0 : ℚ)) (fun _ => (3 : ℚ))) 0 (by decide)]
    norm_num⟩

/-- C6. Dimension propagation for Square: `Square<F>::DIM` is `F::DIM`, and
`Square<F>::Operation` writes the components `out[0 .. DIM - 1]` and nothing
else: a component of `out` at an index `>= DIM` keeps its value, and `outF` is
left as it was. -/
theorem Square_DIM_and_frame {R : Type} [Mul R] (F : Formula R) (s : OpState R) :
    (Formula.Square F).DIM = F.DIM ∧
      (∀ k : Nat, k < (Formula.Square F).DIM →
        (Square.Operation (Formula.Square F).DIM s).out k = s.outF k * s.outF k) ∧
      (∀ k : Nat, (Formula.Square F).DIM ≤ k →
        (Square.Operation (Formula.Square F).DIM s).out k = s.out k) ∧
      (Square.Operation (Formula.Square F).DIM s).outF = s.outF :=
  ⟨rfl, fun k hk => Square.loop_out_of_lt _ s k hk,
    fun k hk => Square.loop_out_of_ge _ s k hk, Square.loop_outF _ s⟩

/-- C10. Square is elementwise: for `k < DIM`, two runs of
`Square<F>::Operation` whose operand buffers agree at index `k` agree at index
`k` of the output, whatever the other components of the buffers hold. -/
theorem Square_Operation_componentwise {R : Type} [Mul R] (F : Formula R) (a b : OpState R)
    (k : Nat) (hk : k < Square.DIM F.DIM) (h : a.outF k = b.outF k) :
    (Square.Operation (Square.DIM F.DIM) a).out k =
      (Square.Operation (Square.DIM F.DIM) b).out k := by
  unfold Square.Operation
  rw [Square.loop_out_of_lt _ a k hk, Square.loop_out_of_lt _ b k hk, h]

/-- The witness of C10: with `DIM = 2`, the operand buffers `[3, 1]` and `[3, 7]`
agree at index 0, and so do the outputs, both 9. -/
theorem Square_Operation_componentwise_witness :
    (0 < Square.DIM prodF.DIM) ∧ stateA.outF 0 = stateB.outF 0 ∧
      (Square.Operation (Square.DIM prodF.DIM) stateA).out 0 =
        (Square.Operation (Square.DIM prodF.DIM) stateB).out 0 :=
  ⟨by decide, rfl, Square_Operation_componentwise prodF stateA stateB 0 (by decide) rfl⟩

/-! ## The derivative rule of `Square` -/

/-- C3. Derivative rule of Square: `Square<F>::DiffT<V, g>` is exactly the
formula `Scal(IntConstant(2), Differentiate(F, V, Mult(F, g)))`, so at every
point it evaluates to 2 times the gradient formula of `F` taken with the
upstream gradient `F * g`. -/
theorem Square_DiffT_rule {R : Type} [Field R] (F g : Formula R) (V : Variable) :
    Formula.DiffT (Formula.Square F) V g = Square.DiffT F (Formula.DiffT F) V g ∧
      Square.DiffT F (Formula.DiffT F) V g =
        Formula.Scal (Formula.IntConstant 2) (Formula.DiffT F V (Formula.Mult F g)) ∧
      ∀ (x : Formula.Env R) (k : Nat),
        Formula.eval x (Formula.DiffT (Formula.Square F) V g) k =
          2 * Formula.eval x (Formula.DiffT F V (Formula.Mult F g)) k :=
  ⟨rfl, rfl, fun x k => Formula.eval_DiffT_Square x F g V k⟩

/-- The counterexample of C2: with `F = Scal(Var(0), Var(1))` of dimension 2,
`V = Var(0)` of dimension 1 and `g` of dimension 2, at the input
`Var(0) = [1]`, `Var(1) = [1, 2]`, `g = [1, 1]`, the gradient of `Square(F)`
evaluates to `[10]`, while `F` evaluates to `[1, 2]` and the gradient of `F` to
`[3]`, so that `2 * F(x) * Differentiate(F, V, g)` is 6 in its first component. -/
theorem Square_chain_rule_counterexample :
    scalF.WellFormed ∧ scalG.WellFormed ∧ scalG.DIM = (Formula.Square scalF).DIM ∧
      scalF.Binds scalV ∧
      Formula.value scalEnv (Formula.DiffT (Formula.Square scalF) scalV scalG) = [10] ∧
      Formula.value scalEnv scalF = [1, 2] ∧
      Formula.value scalEnv (Formula.DiffT scalF scalV scalG) = [3] ∧
      ¬ (∀ k : Nat, k < scalV.DIM →
        Formula.eval scalEnv (Formula.DiffT (Formula.Square scalF) scalV scalG) k =
          2 * Formula.eval scalEnv scalF k *
            Formula.eval scalEnv (Formula.DiffT scalF scalV scalG) k) := by
  refine ⟨?_, ?_, ?_, ?_, ?_, ?_, ?_, ?_⟩
  · simp [scalF, Formula.WellFormed, Formula.DIM]
  · simp [scalG, Formula.WellFormed]
  · simp [scalG, scalF, Formula.DIM, Square.DIM]
  · simp [scalF, scalV, Formula.Binds]
  · simp [Formula.value, scalF, scalV, scalG, scalEnv, Formula.DiffT, Square.DiffT,
      Formula.eval, Formula.DIM, Finset.sum_range_succ]
    norm_num
  · simp [Formula.value, scalF, scalEnv, Formula.eval, Formula.DIM, List.range_succ]
    norm_num
  · simp [Formula.value, scalF, scalV, scalG, scalEnv, Formula.DiffT,
      Formula.eval, Formula.DIM, Finset.sum_range_succ]
    norm_num
  · intro h
    have h0 := h 0 (by decide)
    simp [scalF, scalV, scalG, scalEnv, Formula.DiffT, Square.DiffT,
      Formula.eval, Formula.DIM, Finset.sum_range_succ] at h0

/-- C2, amended. Chain rule of Square for a formula `F` that depends on `V`
componentwise (the index of `V` occurs neither in the scalar operand of a
`Scal` node nor under a `Sum` or `SumT` node): for every upstream gradient `g`
with `DIM(g) = DIM(Square(F))` and at every point, component `k` of
`Differentiate(Square(F), V, g)` is `2 * F(x)[k]` times component `k` of
`Differentiate(F, V, g)`. -/
theorem Square_chain_rule_componentwise {R : Type} [Field R] (F g : Formula R) (V : Variable)
    (hF : F.Componentwise V.index) (_hg : g.DIM = (Formula.Square F).DIM)
    (x : Formula.Env R) (k : Nat) :
    Formula.eval x (Formula.DiffT (Formula.Square F) V g) k =
      2 * Formula.eval x F k * Formula.eval x (Formula.DiffT F V g) k := by
  obtain ⟨d, hd⟩ := Formula.eval_DiffT_of_Componentwise x V F hF
  rw [Formula.eval_DiffT_Square, hd, hd]
  simp only [Formula.eval]
  ring

/-- The witness of C2, amended: `F = Mult(Var(0), Var(0))` of dimension 2,
`V = Var(0)` and `g = Var(1)`, at the input that binds 3 everywhere. -/
theorem Square_chain_rule_componentwise_witness :
    prodF.Componentwise prodV.index ∧ prodG.DIM = (Formula.Square prodF).DIM ∧
      Formula.eval (constEnv (3 : ℚ)) (Formula.DiffT (Formula.Square prodF) prodV prodG) 1 =
        2 * Formula.eval (constEnv (3 : ℚ)) prodF 1 *
          Formula.eval (constEnv (3 : ℚ)) (Formula.DiffT prodF prodV prodG) 1 :=
  ⟨⟨trivial, trivial⟩, rfl,
    Square_chain_rule_componentwise prodF prodG prodV ⟨trivial, trivial⟩ rfl
      (constEnv (3 : ℚ)) 1⟩

/-- C4. Derivative of x^2 is 2x: for every index `i`, every dimension `n`, every
upstream gradient `g` of dimension `n` and every input,
`Differentiate(Square(Variable(i)), Variable(i), g)` has dimension `n` and its
component `k < n` is `2 * x[k] * g[k]`. -/
theorem Square_Var_gradient {R : Type} [Field R] (i n : Nat) (g : Formula R)
    (_hg : g.DIM = n) (x : Formula.Env R) (k : Nat) (_hk : k < n) :
    (Formula.DiffT (Formula.Square (Formula.Var ⟨i, n⟩)) ⟨i, n⟩ g).DIM = n ∧
      Formula.eval x (Formula.DiffT (Formula.Square (Formula.Var ⟨i, n⟩)) ⟨i, n⟩ g) k =
        2 * x i k * Formula.eval x g k := by
  constructor
  · simp [Formula.DiffT, Square.DiffT, Formula.DIM]
  · simp only [Formula.DiffT, Square.DiffT, Formula.eval, if_true, Int.cast_ofNat]
    ring

/-- The witness of C4: slot 0 of dimension 2, the upstream gradient `Var(1)` of
dimension 2, the input that binds 3 everywhere, component 1: `2 * 3 * 3`. -/
theorem Square_Var_gradient_witness :
    prodG.DIM = 2 ∧ 1 < 2 ∧
      (Formula.DiffT (Formula.Square (Formula.Var ⟨0, 2⟩)) ⟨0, 2⟩ prodG).DIM = 2 ∧
      Formula.eval (constEnv (3 : ℚ))
        (Formula.DiffT (Formula.Square (Formula.Var ⟨0, 2⟩)) ⟨0, 2⟩ prodG) 1 =
        2 * constEnv (3 : ℚ) 0 1 * Formula.eval (constEnv (3 : ℚ)) prodG 1 :=
  ⟨rfl, by decide, Square_Var_gradient 0 2 prodG rfl (constEnv (3 : ℚ)) 1 (by decide)⟩

/-- C5. Second-derivative consistency: with `Variable(0)` of dimension 1 and a
constant unit upstream gradient `u` of dimension 1 (an integer constant or a
scalar constant), `D2 = Differentiate(Differentiate(Square(Variable(0)),
Variable(0), u), Variable(0), u)` evaluates to `[2]` at every input, in
particular at `x = -2`, `x = 0` and `x = 5`. -/
theorem Square_second_derivative {R : Type} [Field R] (x : Formula.Env R) :
    Formula.value x (squareD2 (Formula.IntConstant 1)) = [2] ∧
      Formula.value x (squareD2 (Formula.Constant 1 1)) = [2] ∧
      Formula.value (constEnv (-2 : R)) (squareD2 (Formula.IntConstant 1)) = [2] ∧
      Formula.value (constEnv (0 : R)) (squareD2 (Formula.IntConstant 1)) = [2] ∧
      Formula.value (constEnv (5 : R)) (squareD2 (Formula.IntConstant 1)) = [2] := by
  refine ⟨?_, ?_, ?_, ?_, ?_⟩ <;>
    simp [Formula.value, squareD2, squareD1, x0, Formula.DiffT, Square.DiffT, Formula.eval,
      Formula.DIM]

/-! ## Dimensions and well-formedness of gradients -/

/-- C7. Gradient dimension invariant: for every well-formed formula `F`, every
variable `V` (the leaves of `F` that read the slot of `V` being `V` itself) and
every upstream gradient `g` with `DIM(g) = DIM(F)`, `Differentiate(F, V, g)` has
dimension `DIM(V)`. In particular `Square<F>::DiffT<V, g>` has dimension
`DIM(V)` whenever the rule of `F` yields `DIM(V)`. -/
theorem DiffT_DIM_eq {R : Type} (F g : Formula R) (V : Variable) (hF : F.WellFormed)
    (hV : F.Binds V) (hg : g.DIM = F.DIM) :
    (Formula.DiffT F V g).DIM = V.DIM ∧
      ((Formula.DiffT F V (Formula.Mult F g)).DIM = V.DIM →
        (Square.DiffT F (Formula.DiffT F) V g).DIM = V.DIM) ∧
      (Formula.DiffT (Formula.Square F) V g).DIM = V.DIM :=
  ⟨Formula.DIM_DiffT V F hF hV g hg, fun h => h,
    Formula.DIM_DiffT V (Formula.Square F) hF hV g hg⟩

/-- The witness of C7: `F = Mult(Var(0), Var(0))` of dimension 2, `V = Var(0)`,
`g = Var(1)` of dimension 2. -/
theorem DiffT_DIM_eq_witness :
    prodF.WellFormed ∧ prodF.Binds prodV ∧ prodG.DIM = prodF.DIM ∧
      (Formula.DiffT prodF prodV prodG).DIM = prodV.DIM :=
  ⟨⟨trivial, trivial, rfl⟩, ⟨fun _ => rfl, fun _ => rfl⟩, rfl,
    (DiffT_DIM_eq prodF prodG prodV ⟨trivial, trivial, rfl⟩ ⟨fun _ => rfl, fun _ => rfl⟩ rfl).1⟩

/-- C8. Zero-gradient law: for every formula `F` and every variable `V` whose
index does not occur in `F`, `Differentiate(F, V, g)` evaluates to the all-zero
vector of length `DIM(V)`, for every input and every upstream gradient `g`; in
particular so does `Square<F>::DiffT<V, g>`. -/
theorem DiffT_zero_of_not_Occurs {R : Type} [Field R] (F g : Formula R) (V : Variable)
    (x : Formula.Env R) (hV : ¬ F.Occurs V.index) :
    Formula.value x (Formula.DiffT F V g) = List.replicate V.DIM 0 ∧
      Formula.value x (Square.DiffT F (Formula.DiffT F) V g) = List.replicate V.DIM 0 := by
  have key : ∀ G : Formula R, ¬ G.Occurs V.index →
      Formula.value x (Formula.DiffT G V g) = List.replicate V.DIM 0 := by
    intro G hG
    unfold Formula.value
    rw [Formula.DIM_DiffT_of_not_Occurs V G hG g]
    apply List.ext_get
    · simp
    · intro n h1 h2
      simp [Formula.eval_DiffT_of_not_Occurs x V G hG g]
  exact ⟨key F hV, key (Formula.Square F) hV⟩

/-- The witness of C8: `F = Mult(Var(0), Var(0))` does not read slot 5, so its
gradient with respect to a variable of slot 5 and dimension 3 is `[0, 0, 0]`. -/
theorem DiffT_zero_of_not_Occurs_witness :
    ¬ prodF.Occurs 5 ∧
      Formula.value (constEnv (3 : ℚ)) (Formula.DiffT prodF ⟨5, 3⟩ prodG) = [0, 0, 0] :=
  ⟨by simp [prodF, Formula.Occurs],
    (DiffT_zero_of_not_Occurs prodF prodG ⟨5, 3⟩ (constEnv (3 : ℚ))
      (by simp [prodF, Formula.Occurs])).1⟩

/-- C9. No error state at differentiation time: for every well-formed formula
`F`, every variable `V` (the leaves of `F` that read the slot of `V` being `V`
itself) and every well-formed upstream gradient `g` with `DIM(g) = DIM(F)`,
`Differentiate(F, V, g)` is well-formed. For `Square(F)`: the node `Mult(F, g)`
is well-formed and has dimension `DIM(F)`, `IntConstant(2)` has dimension 1,
and `Square<F>::DiffT<V, g>` is well-formed. -/
theorem DiffT_WellFormed {R : Type} (F g : Formula R) (V : Variable) (hF : F.WellFormed)
    (hV : F.Binds V) (hg : g.WellFormed) (hd : g.DIM = F.DIM) :
    (Formula.DiffT F V g).WellFormed ∧
      g.DIM = (Formula.Square F).DIM ∧
      (Formula.Mult F g).WellFormed ∧ F.DIM = g.DIM ∧
      (Formula.Mult F g).DIM = F.DIM ∧
      (Formula.IntConstant 2 : Formula R).DIM = 1 ∧
      (Square.DiffT F (Formula.DiffT F) V g).WellFormed :=
  ⟨Formula.WellFormed_DiffT V F hF hV g hg hd, hd, ⟨hF, hg, hd.symm⟩, hd.symm, rfl, rfl,
    Formula.WellFormed_DiffT V (Formula.Square F) hF hV g hg hd⟩

/-- The witness of C9: `F = Mult(Var(0), Var(0))` of dimension 2, `V = Var(0)`,
`g = Var(1)` of dimension 2. -/
theorem DiffT_WellFormed_witness :
    prodF.WellFormed ∧ prodF.Binds prodV ∧ prodG.WellFormed ∧ prodG.DIM = prodF.DIM ∧
      (Formula.DiffT prodF prodV prodG).WellFormed :=
  ⟨⟨trivial, trivial, rfl⟩, ⟨fun _ => rfl, fun _ => rfl⟩, trivial, rfl,
    (DiffT_WellFormed prodF prodG prodV ⟨trivial, trivial, rfl⟩ ⟨fun _ => rfl, fun _ => rfl⟩
      trivial rfl).1⟩

/-! ## Lemmas on values, linearity and fuel -/

namespace Formula

theorem value_eq_iff {R : Type} [Field R] (x : Env R) (A B : Formula R) :
    value x A = value x B ↔ A.DIM = B.DIM ∧ ∀ k, k < A.DIM → eval x A k = eval x B k := by
  unfold value
  constructor
  · intro h
    have hlen : A.DIM = B.DIM := by simpa using congrArg List.length h
    refine ⟨hlen, fun k hk => ?_⟩
    have := congrArg (fun l => l[k]?) h
    simpa [List.getElem?_map, List.getElem?_range hk, List.getElem?_range (hlen ▸ hk)] using this
  · rintro ⟨hd, hk⟩
    rw [← hd]
    exact List.map_congr_left (fun k hk' => hk k (List.mem_range.mp hk'))

theorem value_Scal_congr {R : Type} [Field R] (x : Env R) (c A B : Formula R)
    (h : value x A = value x B) : value x (Scal c A) = value x (Scal c B) := by
  rw [value_eq_iff] at h ⊢
  exact ⟨h.1, fun k hk => by simp only [eval]; rw [h.2 k hk]⟩

theorem value_Pow_two {R : Type} [Field R] (x : Env R) (F : Formula R) :
    value x (Pow F 2) = value x (Square F) := by
  rw [value_eq_iff]
  refine ⟨rfl, fun k hk => ?_⟩
  rw [eval_Square_of_lt x F k hk]
  simp only [eval]
  exact zpow_two _

theorem LinearRule_DiffT {R : Type} [Field R] (x : Env R) (V : Variable) (F : Formula R) :
    F.WellFormed → F.Binds V → LinearRule x V F.DIM (DiffT F V) := by
  induction F with
  | Var v =>
    intro _ hV c g g₁ g₂ hg _ _ h j hj
    by_cases hv : v.index = V.index
    · simp only [DiffT, hv, if_true]
      exact h j (by have := hV hv; simp only [DIM]; omega)
    · simp [DiffT, hv, eval]
  | Zero dim => intro _ _ c g g₁ g₂ _ _ _ _ j _; simp [DiffT, eval]
  | IntConstant n => intro _ _ c g g₁ g₂ _ _ _ _ j _; simp [DiffT, eval]
  | Constant a dim => intro _ _ c g g₁ g₂ _ _ _ _ j _; simp [DiffT, eval]
  | Add F G ihF ihG =>
    intro hF hV c g g₁ g₂ hg hg₁ hg₂ h j hj
    have hFG : F.DIM = G.DIM := hF.2.2
    simp only [DIM] at hg hg₁ hg₂ h
    simp only [DiffT, eval]
    rw [ihF hF.1 hV.1 c g g₁ g₂ hg hg₁ hg₂ h j hj,
      ihG hF.2.1 hV.2 c g g₁ g₂ (hg.trans hFG) (hg₁.trans hFG) (hg₂.trans hFG)
        (fun k hk => h k (hFG ▸ hk)) j hj]
    ring
  | Mult F G ihF ihG =>
    intro hF hV c g g₁ g₂ hg hg₁ hg₂ h j hj
    have hFG : F.DIM = G.DIM := hF.2.2
    simp only [DIM] at hg hg₁ hg₂ h
    simp only [DiffT, eval]
    rw [ihF hF.1 hV.1 c (Mult G g) (Mult G g₁) (Mult G g₂) hFG.symm hFG.symm hFG.symm
        (fun k hk => by simp only [eval]; rw [h k hk]; ring) j hj,
      ihG hF.2.1 hV.2 c (Mult F g) (Mult F g₁) (Mult F g₂) hFG hFG hFG
        (fun k hk => by simp only [eval]; rw [h k (hFG ▸ hk)]; ring) j hj]
    ring
  | Scal F G ihF ihG =>
    intro hF hV c g g₁ g₂ hg hg₁ hg₂ h j hj
    have hF1 : F.DIM = 1 := hF.2.2
    simp only [DIM] at hg hg₁ hg₂ h
    simp only [DiffT, eval]
    rw [ihF hF.1 hV.1 c (Sum (Mult G g)) (Sum (Mult G g₁)) (Sum (Mult G g₂))
        hF1.symm hF1.symm hF1.symm
        (fun k _ => by
          simp only [eval, DIM]
          rw [Finset.mul_sum, ← Finset.sum_add_distrib]
          exact Finset.sum_congr rfl (fun i hi => by
            rw [h i (Finset.mem_range.mp hi)]; ring)) j hj,
      ihG hF.2.1 hV.2 c (Scal F g) (Scal F g₁) (Scal F g₂) hg hg₁ hg₂
        (fun k hk => by simp only [eval]; rw [h k hk]; ring) j hj]
    ring
  | Sum F ih =>
    intro hF hV c g g₁ g₂ hg hg₁ hg₂ h j hj
    simp only [DIM] at hg hg₁ hg₂ h
    simp only [DiffT]
    exact ih hF hV c (SumT g F.DIM) (SumT g₁ F.DIM) (SumT g₂ F.DIM) rfl rfl rfl
      (fun k _ => by simp only [eval]; exact h 0 (by omega)) j hj
  | SumT F dim ih =>
    intro hF hV c g g₁ g₂ hg hg₁ hg₂ h j hj
    simp only [DIM] at hg hg₁ hg₂ h
    simp only [DiffT]
    exact ih hF.1 hV c (Sum g) (Sum g₁) (Sum g₂) hF.2.symm hF.2.symm hF.2.symm
      (fun k _ => by
        simp only [eval]
        rw [hg, hg₁, hg₂, Finset.mul_sum, ← Finset.sum_add_distrib]
        exact Finset.sum_congr rfl (fun i hi => h i (Finset.mem_range.mp hi))) j hj
  | Square F ih =>
    intro hF hV c g g₁ g₂ hg hg₁ hg₂ h j hj
    simp only [DIM, Square.DIM] at hg hg₁ hg₂ h
    simp only [DiffT, Square.DiffT, eval]
    rw [ih hF hV c (Mult F g) (Mult F g₁) (Mult F g₂) rfl rfl rfl
      (fun k hk => by simp only [eval]; rw [h k hk]; ring) j hj]
    ring
  | Pow F n ih =>
    intro hF hV c g g₁ g₂ hg hg₁ hg₂ h j hj
    simp only [DIM] at hg hg₁ hg₂ h
    simp only [DiffT, eval]
    rw [ih hF hV c (Mult (Pow F (n - 1)) g) (Mult (Pow F (n - 1)) g₁) (Mult (Pow F (n - 1)) g₂)
      rfl rfl rfl (fun k hk => by simp only [eval]; rw [h k hk]; ring) j hj]
    ring

/-- The rule of `Square` is linear in the upstream gradient as soon as the rule
of its operand is. -/
theorem LinearRule_Square {R : Type} [Field R] (x : Env R) (V : Variable) (F : Formula R)
    (D : Variable → Formula R → Formula R) (hD : LinearRule x V F.DIM (D V)) :
    LinearRule x V (Square F).DIM (Square.DiffT F D V) := by
  intro c g g₁ g₂ hg hg₁ hg₂ h j hj
  simp only [DIM, Square.DIM] at hg hg₁ hg₂ h
  simp only [Square.DiffT, eval]
  rw [hD c (Mult F g) (Mult F g₁) (Mult F g₂) rfl rfl rfl
    (fun k hk => by simp only [eval]; rw [h k hk]; ring) j hj]
  ring

/-- A well-formed formula meets `ValueOnly`: its gradient formula depends on the
upstream gradient through its value only. -/
theorem ValueOnly_of_WellFormed {R : Type} [Field R] (x : Env R) (V : Variable) (F : Formula R)
    (hF : F.WellFormed) (hV : F.Binds V) : ValueOnly x F V := by
  intro h₁ h₂ d₁ d₂ hv
  rw [value_eq_iff] at hv ⊢
  have e₁ := DIM_DiffT V F hF hV h₁ d₁
  have e₂ := DIM_DiffT V F hF hV h₂ d₂
  refine ⟨e₁.trans e₂.symm, fun j hj => ?_⟩
  have key := LinearRule_DiffT x V F hF hV 0 h₁ h₂ h₂ d₁ d₂ d₂
    (fun k hk => by rw [hv.2 k (d₁ ▸ hk)]; ring) j (e₁ ▸ hj)
  simpa using key

/-- Fuel above the depth of the node is enough: the recursion reaches the leaves
and returns the gradient formula, whatever the size of the upstream gradient. -/
theorem DiffTFuel_eq_some {R : Type} (V : Variable) (F : Formula R) :
    ∀ (fuel : Nat) (g : Formula R), F.depth < fuel → DiffTFuel fuel F V g = some (DiffT F V g) := by
  induction F with
  | Var v => intro fuel g h; cases fuel with
    | zero => omega
    | succ n => rfl
  | Zero dim => intro fuel g h; cases fuel with
    | zero => omega
    | succ n => rfl
  | IntConstant n => intro fuel g h; cases fuel with
    | zero => omega
    | succ n => rfl
  | Constant c dim => intro fuel g h; cases fuel with
    | zero => omega
    | succ n => rfl
  | Add F G ihF ihG =>
    intro fuel g h
    cases fuel with
    | zero => omega
    | succ n =>
      simp only [depth] at h
      simp only [DiffTFuel, DiffT, ihF n _ (by omega), ihG n _ (by omega)]
  | Mult F G ihF ihG =>
    intro fuel g h
    cases fuel with
    | zero => omega
    | succ n =>
      simp only [depth] at h
      simp only [DiffTFuel, DiffT, ihF n _ (by omega), ihG n _ (by omega)]
  | Scal F G ihF ihG =>
    intro fuel g h
    cases fuel with
    | zero => omega
    | succ n =>
      simp only [depth] at h
      simp only [DiffTFuel, DiffT, ihF n _ (by omega), ihG n _ (by omega)]
  | Sum F ih =>
    intro fuel g h
    cases fuel with
    | zero => omega
    | succ n =>
      simp only [depth] at h
      simp only [DiffTFuel, DiffT, ih n _ (by omega)]
  | SumT F dim ih =>
    intro fuel g h
    cases fuel with
    | zero => omega
    | succ n =>
      simp only [depth] at h
      simp only [DiffTFuel, DiffT, ih n _ (by omega)]
  | Square F ih =>
    intro fuel g h
    cases fuel with
    | zero => omega
    | succ n =>
      simp only [depth] at h
      simp only [DiffTFuel, DiffT, Square.DiffT, ih n _ (by omega)]
  | Pow F m ih =>
    intro fuel g h
    cases fuel with
    | zero => omega
    | succ n =>
      simp only [depth] at h
      simp only [DiffTFuel, DiffT, ih n _ (by omega)]

/-- Fuel up to the depth of the node is not enough: the depth of the tree is
the exact nesting of the recursive calls. -/
theorem DiffTFuel_eq_none {R : Type} (V : Variable) (F : Formula R) :
    ∀ (fuel : Nat) (g : Formula R), fuel ≤ F.depth → DiffTFuel fuel F V g = none := by
  induction F with
  | Var v =>
    intro fuel g h
    simp only [depth] at h
    obtain rfl : fuel = 0 := by omega
    rfl
  | Zero dim =>
    intro fuel g h
    simp only [depth] at h
    obtain rfl : fuel = 0 := by omega
    rfl
  | IntConstant n =>
    intro fuel g h
    simp only [depth] at h
    obtain rfl : fuel = 0 := by omega
    rfl
  | Constant c dim =>
    intro fuel g h
    simp only [depth] at h
    obtain rfl : fuel = 0 := by omega
    rfl
  | Add F G ihF ihG =>
    intro fuel g h
    cases fuel with
    | zero => rfl
    | succ n =>
      simp only [depth] at h
      simp only [DiffTFuel]
      rcases Nat.lt_or_ge F.depth n with hlt | hge
      · rw [ihG n _ (by omega)]
        cases DiffTFuel n F V g <;> rfl
      · rw [ihF n _ hge]
  | Mult F G ihF ihG =>
    intro fuel g h
    cases fuel with
    | zero => rfl
    | succ n =>
      simp only [depth] at h
      simp only [DiffTFuel]
      rcases Nat.lt_or_ge F.depth n with hlt | hge
      · rw [ihG n _ (by omega)]
        cases DiffTFuel n F V (Mult G g) <;> rfl
      · rw [ihF n _ hge]
  | Scal F G ihF ihG =>
    intro fuel g h
    cases fuel with
    | zero => rfl
    | succ n =>
      simp only [depth] at h
      simp only [DiffTFuel]
      rcases Nat.lt_or_ge F.depth n with hlt | hge
      · rw [ihG n _ (by omega)]
        cases DiffTFuel n F V (Sum (Mult G g)) <;> rfl
      · rw [ihF n _ hge]
  | Sum F ih =>
    intro fuel g h
    cases fuel with
    | zero => rfl
    | succ n =>
      simp only [depth] at h
      simp only [DiffTFuel, ih n _ (by omega)]
  | SumT F dim ih =>
    intro fuel g h
    cases fuel with
    | zero => rfl
    | succ n =>
      simp only [depth] at h
      simp only [DiffTFuel, ih n _ (by omega)]
  | Square F ih =>
    intro fuel g h
    cases fuel with
    | zero => rfl
    | succ n =>
      simp only [depth] at h
      simp only [DiffTFuel, ih n _ (by omega)]
  | Pow F m ih =>
    intro fuel g h
    cases fuel with
    | zero => rfl
    | succ n =>
      simp only [depth] at h
      simp only [DiffTFuel, ih n _ (by omega)]

theorem value_Scal_IntConstant {R : Type} [Field R] (x : Env R) (n : Int) (A : Formula R) :
    value x (Scal (IntConstant n) A) = (value x A).map (fun a => (n : R) * a) := by
  simp [value, eval, DIM, Function.comp_def]

end Formula

theorem setComp_self {R : Type} (x : Formula.Env R) (i j : Nat) :
    setComp x i j (x i j) = x := by
  simp [setComp]

/-! ## Square and `Pow`, exactness, the comment of the rule, termination, linearity -/

/-- C11. Pow with n = 2 recovers Square: `Pow(F, 2)` evaluates to the same
vector as `Square(F)`; the derivative rule of `Pow` at `n = 2` is the formula
`Scal(IntConstant(2), Differentiate(F, V, Mult(Pow(F, 1), g)))`, and it
evaluates to the same vector as `Square<F>::DiffT<V, g>`, provided the gradient
formula of `F` depends on its upstream gradient only through its value. -/
theorem Pow_two_recovers_Square {R : Type} [Field R] (F g : Formula R) (V : Variable)
    (x : Formula.Env R) (hF : Formula.ValueOnly x F V) :
    Formula.value x (Formula.Pow F 2) = Formula.value x (Formula.Square F) ∧
      Formula.DiffT (Formula.Pow F 2) V g = Pow.DiffT 2 F (Formula.DiffT F) V g ∧
      Pow.DiffT 2 F (Formula.DiffT F) V g =
        Formula.Scal (Formula.IntConstant 2)
          (Formula.DiffT F V (Formula.Mult (Formula.Pow F 1) g)) ∧
      Formula.value x (Pow.DiffT 2 F (Formula.DiffT F) V g) =
        Formula.value x (Square.DiffT F (Formula.DiffT F) V g) := by
  refine ⟨Formula.value_Pow_two x F, rfl, rfl, ?_⟩
  apply Formula.value_Scal_congr
  refine hF (Formula.Mult (Formula.Pow F (2 - 1)) g) (Formula.Mult F g) rfl rfl ?_
  rw [Formula.value_eq_iff]
  refine ⟨rfl, fun k _ => ?_⟩
  simp [Formula.eval]

/-- The witness of C11: `F = Mult(Var(0), Var(0))` of dimension 2, `V = Var(0)`,
`g = Var(1)`, at the input that binds 3 everywhere. -/
theorem Pow_two_recovers_Square_witness :
    Formula.ValueOnly (constEnv (3 : ℚ)) prodF prodV ∧
      Formula.value (constEnv (3 : ℚ)) (Pow.DiffT 2 prodF (Formula.DiffT prodF) prodV prodG) =
        Formula.value (constEnv (3 : ℚ))
          (Square.DiffT prodF (Formula.DiffT prodF) prodV prodG) :=
  ⟨Formula.ValueOnly_of_WellFormed (constEnv (3 : ℚ)) prodV prodF ⟨trivial, trivial, rfl⟩
      ⟨fun _ => rfl, fun _ => rfl⟩,
    (Pow_two_recovers_Square prodF prodG prodV (constEnv (3 : ℚ))
      (Formula.ValueOnly_of_WellFormed (constEnv (3 : ℚ)) prodV prodF ⟨trivial, trivial, rfl⟩
        ⟨fun _ => rfl, fun _ => rfl⟩)).2.2.2⟩

/-- C12. Exactness of the Square gradient as a vector-Jacobian product, over the
reals. Let `J k j` be the derivative of component `k` of the value of `F` in
component `j` of the input of `V`, and suppose that for every upstream gradient
`h` of dimension `DIM(F)` the formula `Differentiate(F, V, h)` evaluates to the
transposed Jacobian applied to `h`, with components `sum over k of J k j * h k`.
Then component `k` of `Square(F)` has the derivative `2 * F_k(x) * J k j` in
component `j` of the input of `V`, and for every `g` of dimension `DIM(F)` the
formula `Square<F>::DiffT<V, g>` evaluates to the transposed Jacobian of the
square applied to `g`, with components `sum over k of 2 * F_k(x) * J k j * g k`. -/
theorem Square_DiffT_vjp (F g : Formula ℝ) (V : Variable) (x : Formula.Env ℝ)
    (J : Nat → Nat → ℝ)
    (hJ : ∀ k : Nat, k < F.DIM → ∀ j : Nat, j < V.DIM →
      HasDerivAt (fun t => Formula.eval (setComp x V.index j t) F k) (J k j) (x V.index j))
    (hF : ∀ h : Formula ℝ, h.DIM = F.DIM → ∀ j : Nat, j < V.DIM →
      Formula.eval x (Formula.DiffT F V h) j =
        ∑ k in Finset.range F.DIM, J k j * Formula.eval x h k)
    (_hg : g.DIM = F.DIM) (j : Nat) (hj : j < V.DIM) :
    (∀ k : Nat, k < (Formula.Square F).DIM →
      HasDerivAt (fun t => Formula.eval (setComp x V.index j t) (Formula.Square F) k)
        (2 * Formula.eval x F k * J k j) (x V.index j)) ∧
      Formula.eval x (Square.DiffT F (Formula.DiffT F) V g) j =
        ∑ k in Finset.range F.DIM, 2 * Formula.eval x F k * J k j * Formula.eval x g k := by
  constructor
  · intro k hk
    have hk' : k < F.DIM := hk
    have hfun : (fun t => Formula.eval (setComp x V.index j t) (Formula.Square F) k) =
        fun t => Formula.eval (setComp x V.index j t) F k *
          Formula.eval (setComp x V.index j t) F k := by
      funext t
      exact Formula.eval_Square_of_lt _ F k hk'
    have hmul := (hJ k hk' j hj).mul (hJ k hk' j hj)
    rw [setComp_self] at hmul
    rw [hfun]
    convert hmul using 1
    ring
  · have h2 := hF (Formula.Mult F g) rfl j hj
    simp only [Square.DiffT, Formula.eval, Int.cast_ofNat] at h2 ⊢
    rw [h2, Finset.mul_sum]
    exact Finset.sum_congr rfl (fun k _ => by ring)

/-- The witness of C12: `F = Variable(0)` of dimension 1 and `V = Variable(0)`,
with the Jacobian `J = 1`, at the input `x = 3` and with the unit upstream
gradient: the gradient of the square is `2 * 3 * 1 * 1`. -/
theorem Square_DiffT_vjp_witness :
    (Formula.IntConstant 1 : Formula ℝ).DIM = (Formula.Var x0 : Formula ℝ).DIM ∧ 0 < x0.DIM ∧
      Formula.eval (constEnv (3 : ℝ))
        (Square.DiffT (Formula.Var x0) (Formula.DiffT (Formula.Var x0)) x0
          (Formula.IntConstant 1)) 0 =
        ∑ k in Finset.range (Formula.Var x0 : Formula ℝ).DIM,
          2 * Formula.eval (constEnv (3 : ℝ)) (Formula.Var x0) k * (1 : ℝ) *
            Formula.eval (constEnv (3 : ℝ)) (Formula.IntConstant 1) k :=
  ⟨rfl, by decide,
    (Square_DiffT_vjp (Formula.Var x0) (Formula.IntConstant 1) x0 (constEnv (3 : ℝ))
      (fun _ _ => 1)
      (fun k hk j hj => by
        have hk0 : k = 0 := by simp [Formula.DIM, x0] at hk; omega
        have hj0 : j = 0 := by simp [x0] at hj; omega
        subst hk0 hj0
        simpa [Formula.eval, setComp, x0] using hasDerivAt_id (constEnv (3 : ℝ) 0 0))
      (fun h hh j hj => by
        simp [Formula.DiffT, Formula.DIM, x0] at hj ⊢
        subst hj
        rfl)
      rfl 0 (by decide)).2⟩

/-- The counterexample of C13: with `F = Variable(0)` of dimension 1,
`V = Variable(0)` and `gradin` the constant 1, at `x = 3`,
`Square<F>::DiffT<V, gradin>` evaluates to `[6]` while
`F::DiffT<V, Mult<F, gradin>>` evaluates to `[3]`. -/
theorem Square_DiffT_comment_counterexample :
    Formula.value (constEnv (3 : ℚ))
        (Square.DiffT (Formula.Var x0) (Formula.DiffT (Formula.Var x0)) x0
          (Formula.IntConstant 1)) = [6] ∧
      Formula.value (constEnv (3 : ℚ))
        (Formula.DiffT (Formula.Var x0) x0
          (Formula.Mult (Formula.Var x0) (Formula.IntConstant 1))) = [3] ∧
      Formula.value (constEnv (3 : ℚ))
        (Square.DiffT (Formula.Var x0) (Formula.DiffT (Formula.Var x0)) x0
          (Formula.IntConstant 1)) ≠
      Formula.value (constEnv (3 : ℚ))
        (Formula.DiffT (Formula.Var x0) x0
          (Formula.Mult (Formula.Var x0) (Formula.IntConstant 1))) := by
  have h6 : Formula.value (constEnv (3 : ℚ))
      (Square.DiffT (Formula.Var x0) (Formula.DiffT (Formula.Var x0)) x0
        (Formula.IntConstant 1)) = [6] := by
    simp [Formula.value, Square.DiffT, Formula.DiffT, Formula.eval, Formula.DIM, x0, constEnv]
    norm_num
  have h3 : Formula.value (constEnv (3 : ℚ))
      (Formula.DiffT (Formula.Var x0) x0
        (Formula.Mult (Formula.Var x0) (Formula.IntConstant 1))) = [3] := by
    simp [Formula.value, Formula.DiffT, Formula.eval, Formula.DIM, x0, constEnv]
  refine ⟨h6, h3, ?_⟩
  rw [h6, h3]
  simp

/-- C13, amended. The comment above the rule leaves out the factor 2: for every
`F`, `V`, `gradin` and every input, `Square<F>::DiffT<V, gradin>` evaluates to 2
times the vector `F::DiffT<V, Mult<F, gradin>>` evaluates to (the gradient of `F`
taken with the upstream gradient scaled elementwise by `F`). -/
theorem Square_DiffT_twice {R : Type} [Field R] (F gradin : Formula R) (V : Variable)
    (x : Formula.Env R) :
    Formula.value x (Square.DiffT F (Formula.DiffT F) V gradin) =
      (Formula.value x (Formula.DiffT F V (Formula.Mult F gradin))).map (fun a => 2 * a) := by
  unfold Square.DiffT
  rw [Formula.value_Scal_IntConstant]
  simp

/-- C14. Termination of differentiation: `Differentiate(node, V, g)` is total by
recursion on `node`: run with any fuel above the depth of `node`, the recursive
dispatch returns the gradient formula, whatever the size of `g` (and with less
fuel it does not: the nesting of the calls is the depth of `node`). The rule of
`Square` makes one recursive call, on its operand `F` with the upstream
gradient `Mult(F, g)`; `F` is strictly less deep than `Square(F)`, while
`Mult(F, g)` is a larger formula than `g`. -/
theorem DiffT_terminates {R : Type} (node F g : Formula R) (V : Variable) :
    (∀ fuel : Nat, node.depth < fuel →
      Formula.DiffTFuel fuel node V g = some (Formula.DiffT node V g)) ∧
      (∀ fuel : Nat, fuel ≤ node.depth → Formula.DiffTFuel fuel node V g = none) ∧
      (∀ fuel : Nat, Formula.DiffTFuel (fuel + 1) (Formula.Square F) V g =
        (Formula.DiffTFuel fuel F V (Formula.Mult F g)).map
          (fun dF => Square.DiffT F (fun _ _ => dF) V g)) ∧
      (∀ D : Variable → Formula R → Formula R,
        Square.DiffT F D V g = Formula.Scal (Formula.IntConstant 2) (D V (Formula.Mult F g))) ∧
      F.depth < (Formula.Square F).depth ∧
      F.size < (Formula.Square F).size ∧
      g.size < (Formula.Mult F g).size := by
  refine ⟨fun fuel h => Formula.DiffTFuel_eq_some V node fuel g h,
    fun fuel h => Formula.DiffTFuel_eq_none V node fuel g h, fun fuel => ?_,
    fun D => rfl, ?_, ?_, ?_⟩
  · simp only [Formula.DiffTFuel, Square.DiffT]
    cases Formula.DiffTFuel fuel F V (Formula.Mult F g) <;> rfl
  · simp only [Formula.depth]; omega
  · simp only [Formula.size]; omega
  · have : 0 < F.size := by cases F <;> simp only [Formula.size] <;> omega
    simp only [Formula.size]; omega

/-- C15. Linearity in the upstream gradient: for every well-formed formula `F`,
every variable `V` (the leaves of `F` that read the slot of `V` being `V`
itself) and every input, if `g`, `g₁`, `g₂` have dimension `DIM(F)` and the
value of `g` is `g₁ + c * g₂`, then `Differentiate(F, V, g)` evaluates to the
value of `Differentiate(F, V, g₁)` plus `c` times the value of
`Differentiate(F, V, g₂)`. The rule of `Square` keeps this property of the rule
of its operand. -/
theorem DiffT_linear {R : Type} [Field R] (F g g₁ g₂ : Formula R) (V : Variable)
    (x : Formula.Env R) (c : R) (hF : F.WellFormed) (hV : F.Binds V)
    (hg : g.DIM = F.DIM) (hg₁ : g₁.DIM = F.DIM) (hg₂ : g₂.DIM = F.DIM)
    (h : ∀ k : Nat, k < F.DIM →
      Formula.eval x g k = Formula.eval x g₁ k + c * Formula.eval x g₂ k) :
    (∀ j : Nat, j < V.DIM →
      Formula.eval x (Formula.DiffT F V g) j =
        Formula.eval x (Formula.DiffT F V g₁) j + c * Formula.eval x (Formula.DiffT F V g₂) j) ∧
      (∀ j : Nat, j < V.DIM →
        Formula.eval x (Formula.DiffT (Formula.Square F) V g) j =
          Formula.eval x (Formula.DiffT (Formula.Square F) V g₁) j +
            c * Formula.eval x (Formula.DiffT (Formula.Square F) V g₂) j) ∧
      (∀ D : Variable → Formula R → Formula R, Formula.LinearRule x V F.DIM (D V) →
        Formula.LinearRule x V (Formula.Square F).DIM (Square.DiffT F D V)) :=
  ⟨Formula.LinearRule_DiffT x V F hF hV c g g₁ g₂ hg hg₁ hg₂ h,
    Formula.LinearRule_DiffT x V (Formula.Square F) hF hV c g g₁ g₂ hg hg₁ hg₂ h,
    fun D hD => Formula.LinearRule_Square x V F D hD⟩

/-- The witness of C15: `F = Mult(Var(0), Var(0))` of dimension 2, `V = Var(0)`,
`g₁ = Var(1)`, `g₂ = Var(2)`, `c = 5` and `g = Add(g₁, Scal(Constant(5), g₂))`,
at component 1. -/
theorem DiffT_linear_witness :
    prodF.WellFormed ∧ prodF.Binds prodV ∧ linG.DIM = prodF.DIM ∧ prodG.DIM = prodF.DIM ∧
      scalG.DIM = prodF.DIM ∧
      Formula.eval (constEnv (3 : ℚ)) (Formula.DiffT prodF prodV linG) 1 =
        Formula.eval (constEnv (3 : ℚ)) (Formula.DiffT prodF prodV prodG) 1 +
          5 * Formula.eval (constEnv (3 : ℚ)) (Formula.DiffT prodF prodV scalG) 1 :=
  ⟨⟨trivial, trivial, rfl⟩, ⟨fun _ => rfl, fun _ => rfl⟩, rfl, rfl, rfl,
    (DiffT_linear prodF linG prodG scalG prodV (constEnv (3 : ℚ)) 5 ⟨trivial, trivial, rfl⟩
      ⟨fun _ => rfl, fun _ => rfl⟩ rfl rfl rfl
      (fun k _ => by simp [linG, prodG, scalG, Formula.eval])).1 1 (by decide)⟩

end keops
